import Mathlib

/-!
# Verification of the autobackup retention selector

Shallow embedding of `nbs/00_core.ipynb` from johnowhitaker/autobackup.

The notebook's exported code is Python:

* `clean_dates(dates, now=None, max_ages=(2,14,60))` — sorts `dates` in
  place (lexicographically, which on the fixed-width `%Y%m%d_%H%M%S`
  identifiers coincides with chronological order), then for each
  `max_age` collects the first identifier whose age in whole days
  (`(now - strptime(d)).days`, a floor) is strictly below `max_age`,
  appends the last five of the sorted list, and returns
  `sorted(set(clean))`.  When `now` is `None` (the default) the wall
  clock `datetime.now()` is read instead.
* `run_backup(src, dest, max_ages, log_file)` — calls `create_backup`,
  lists the backup directories, calls `clean_dates` (without passing
  `now`), and removes every directory not in the keep-set; the whole body
  sits in one `try/except` that logs any exception.

Timestamps are modelled as seconds since the Unix epoch (`Int`), with the
proleptic-Gregorian ordinal arithmetic that CPython's `datetime` uses.
Python exceptions are modelled with `Option` (`none` = the call raised).
The mutable `dates` argument is modelled by returning, next to the
keep-set, the post-call contents of the argument list.
-/

namespace Autobackup

/-- Numeric value of a decimal digit character. -/
def digitVal (c : Char) : Nat := c.toNat - 48

/-- Is `c` one of the ASCII digits `0`–`9`? -/
def isDigit (c : Char) : Bool := 48 ≤ c.toNat && c.toNat ≤ 57

/-- A parsed `%Y%m%d_%H%M%S` timestamp (the fields of a Python `datetime`). -/
structure DT where
  year : Nat
  month : Nat
  day : Nat
  hour : Nat
  minute : Nat
  second : Nat
deriving DecidableEq, Repr

/-- Gregorian leap-year test, as in CPython's `datetime._is_leap`. -/
def isLeap (y : Nat) : Bool := y % 4 == 0 && (y % 100 != 0 || y % 400 == 0)

/-- Length of month `m` (1–12); CPython's `_DAYS_IN_MONTH` table. -/
def daysInMonthTbl (leap : Bool) : Nat → Nat
  | 1 => 31
  | 2 => if leap then 29 else 28
  | 3 => 31
  | 4 => 30
  | 5 => 31
  | 6 => 30
  | 7 => 31
  | 8 => 31
  | 9 => 30
  | 10 => 31
  | 11 => 30
  | 12 => 31
  | _ => 0

/-- Days in the year strictly before month `m`; CPython's `_DAYS_BEFORE_MONTH`. -/
def daysBeforeMonth (leap : Bool) : Nat → Nat
  | 0 => 0
  | 1 => 0
  | m + 2 => daysBeforeMonth leap (m + 1) + daysInMonthTbl leap (m + 1)

/-- Days strictly before January 1 of year `y`; CPython's `_days_before_year`. -/
def daysBeforeYear (y : Nat) : Nat :=
  365 * (y - 1) + (y - 1) / 4 + (y - 1) / 400 - (y - 1) / 100

/-- Proleptic-Gregorian ordinal of a date: `toordinal ⟨1,1,1,_,_,_⟩ = 1`,
exactly CPython's `datetime.toordinal`. -/
def toordinal (t : DT) : Nat :=
  daysBeforeYear t.year + daysBeforeMonth (isLeap t.year) t.month + t.day

/-- Seconds since the Unix epoch (ordinal of 1970-01-01 is 719163).
Subtracting two Python `datetime`s yields exactly this difference. -/
def toSecs (t : DT) : Int :=
  ((toordinal t : Int) - 719163) * 86400 +
    ((t.hour : Int) * 3600 + (t.minute : Int) * 60 + (t.second : Int))

/-- Parse a character list against `%Y%m%d_%H%M%S`, validating ranges the way
`datetime.strptime` does; `none` models a raised `ValueError`. -/
def parseIdChars : List Char → Option DT
  | [y1, y2, y3, y4, m1, m2, d1, d2, u, h1, h2, n1, n2, s1, s2] =>
    let y := ((digitVal y1 * 10 + digitVal y2) * 10 + digitVal y3) * 10 + digitVal y4
    let mo := digitVal m1 * 10 + digitVal m2
    let dy := digitVal d1 * 10 + digitVal d2
    let h := digitVal h1 * 10 + digitVal h2
    let mi := digitVal n1 * 10 + digitVal n2
    let se := digitVal s1 * 10 + digitVal s2
    if u = '_' ∧
        ([y1, y2, y3, y4, m1, m2, d1, d2, h1, h2, n1, n2, s1, s2].all isDigit = true) ∧
        1 ≤ y ∧ 1 ≤ mo ∧ mo ≤ 12 ∧ 1 ≤ dy ∧ dy ≤ daysInMonthTbl (isLeap y) mo ∧
        h ≤ 23 ∧ mi ≤ 59 ∧ se ≤ 59 then
      some ⟨y, mo, dy, h, mi, se⟩
    else none
  | _ => none

/-- The digit character for `n ≤ 9`. -/
def dchar (n : Nat) : Char := Char.ofNat (48 + n)

/-- Render a timestamp back to its fixed-width `%Y%m%d_%H%M%S` form
(`datetime.strftime`); every successfully parsed string has this shape. -/
def formatDT (t : DT) : List Char :=
  [dchar (t.year / 1000 % 10), dchar (t.year / 100 % 10), dchar (t.year / 10 % 10),
   dchar (t.year % 10), dchar (t.month / 10 % 10), dchar (t.month % 10),
   dchar (t.day / 10 % 10), dchar (t.day % 10), '_',
   dchar (t.hour / 10 % 10), dchar (t.hour % 10), dchar (t.minute / 10 % 10),
   dchar (t.minute % 10), dchar (t.second / 10 % 10), dchar (t.second % 10)]

/-- Lexicographic `≤` on character lists by code point: Python's string
comparison, as used by `dates.sort()` and `sorted`. -/
def listLe : List Char → List Char → Bool
  | [], _ => true
  | _ :: _, [] => false
  | a :: as, b :: bs =>
    if a.toNat < b.toNat then true
    else if b.toNat < a.toNat then false
    else listLe as bs

/-- Python's `≤` on strings. -/
def strLe (a b : String) : Bool := listLe a.data b.data

/-- Insert into a sorted list, preserving order. -/
def insertS (x : String) : List String → List String
  | [] => [x]
  | y :: ys => if strLe x y then x :: y :: ys else y :: insertS x ys

/-- Ascending sort by Python string order; the result of `dates.sort()`.
Since `strLe` is total and antisymmetric, the ascending permutation of a
list is unique, so this insertion sort returns exactly the list Python's
`list.sort()` leaves behind. -/
def sortL : List String → List String
  | [] => []
  | x :: xs => insertS x (sortL xs)

/-- Python's `xs[-n:]`: the last `min n (length xs)` elements, in order. -/
def lastN (n : Nat) (l : List String) : List String := l.drop (l.length - n)

/-- Python's `sorted(set(xs))`: the ascending list of the distinct elements. -/
def dedupSort (l : List String) : List String := sortL l.dedup

/-- Age of timestamp `t` at time `now` in whole days:
`(now - t).days` on Python `timedelta`s floors towards minus infinity. -/
def ageDays (now : Int) (t : DT) : Int := (now - toSecs t) / 86400

/-- One step of the comprehension
`[d for d in dates if (now - strptime(d)).days < max_age]`:
`none` models the `ValueError` raised on a malformed identifier. -/
def ltMaxList (now a : Int) : List String → Option (List String)
  | [] => some []
  | s :: rest =>
    match parseIdChars s.data with
    | none => none
    | some t =>
      match ltMaxList now a rest with
      | none => none
      | some l => some (if ageDays now t < a then s :: l else l)

/-- The `for max_age in max_ages` loop of `clean_dates`: collects `lt_max[0]`
for each threshold whose filtered list is non-empty. -/
def buckets (dates : List String) (now : Int) : List Int → Option (List String)
  | [] => some []
  | a :: as =>
    match ltMaxList now a dates with
    | none => none
    | some lt =>
      match buckets dates now as with
      | none => none
      | some rest =>
        some (match lt.head? with
          | some d => d :: rest
          | none => rest)

/-- `clean_dates(dates, now, max_ages)`.  `wallClock` is the value
`datetime.now()` would return during the call; `nowArg = none` models the
Python default `now=None`, in which case `now = now or datetime.now()`
falls back to the wall clock.  Returns `none` when the Python code would
raise, and otherwise the pair (return value, post-call contents of the
mutable `dates` argument, which `dates.sort()` leaves sorted). -/
def clean_dates_impl (wallClock : Int) (dates : List String) (nowArg : Option Int)
    (maxAges : List Int) : Option (List String × List String) :=
  let now := nowArg.getD wallClock
  let sorted := sortL dates
  match buckets sorted now maxAges with
  | none => none
  | some reps => some (dedupSort (reps ++ lastN 5 sorted), sorted)

/-- `clean_dates` as invoked with an explicit `now` argument. -/
def clean_dates (dates : List String) (now : Int) (maxAges : List Int) :
    Option (List String × List String) :=
  clean_dates_impl 0 dates (some now) maxAges

/-- The pruning loop of `run_backup`: walk the (sorted) `backups` list and
`shutil.rmtree` every entry not in the keep-set.  `rmFails b = true` means
removing `b` raises; the exception escapes to the surrounding `except`,
so the loop stops and the remaining state is returned as is. -/
def deleteLoop (keep : List String) (rmFails : String → Bool) :
    List String → List String → List String
  | dirs, [] => dirs
  | dirs, b :: rest =>
    if b ∈ keep then deleteLoop keep rmFails dirs rest
    else if rmFails b then dirs
    else deleteLoop keep rmFails (dirs.erase b) rest

/-- `run_backup`, abstracted over the filesystem: `dirs` is the list of
snapshot directories in `dest`; `createFails` says whether
`create_backup` raises; on success it adds the directory `newId`; `now`
is the wall-clock time when `clean_dates(backups, max_ages=max_ages)`
runs (no `now` argument is passed, so the default wall-clock path is
taken); `rmFails` says which `shutil.rmtree` calls raise.  Returns the
directories still present when the run ends; every exception lands in
the top-level `except`, which only logs. -/
def run_backup (createFails : Bool) (newId : String) (dirs : List String)
    (now : Int) (maxAges : List Int) (rmFails : String → Bool) : List String :=
  if createFails then dirs
  else
    let dirs2 := dirs ++ [newId]
    match clean_dates_impl now dirs2 none maxAges with
    | none => dirs2
    | some (to_keep, sortedBackups) => deleteLoop to_keep rmFails dirs2 sortedBackups

/-! ## Spec-side vocabulary

The claims speak of "well-formed identifiers", "chronological order" (the
order of the parsed timestamps) and "the chronologically earliest
identifier of age < a".  These are defined from the parsed timestamps,
independently of the string order the code sorts by. -/

/-- A well-formed identifier: `strptime` succeeds on it. -/
def Valid (s : String) : Prop := (parseIdChars s.data).isSome = true

/-- Total helper: the parsed timestamp of `s` in epoch seconds (0 if malformed). -/
def toSecsS (s : String) : Int :=
  match parseIdChars s.data with
  | some t => toSecs t
  | none => 0

/-- Age of identifier `s` at `now`, truncated to whole days. -/
def ageDaysS (now : Int) (s : String) : Int := (now - toSecsS s) / 86400

/-- How many entries of `l` are chronologically strictly later than `d`.
`countLater l d < 5` says `d` is among the five chronologically latest. -/
def countLater (l : List String) (d : String) : Nat :=
  l.countP (fun e => toSecsS d < toSecsS e)

/-- `d` is the chronologically earliest member of `l` whose truncated age at
`now` is strictly less than `a` — the spec's bucket representative. -/
def IsEarliestQual (l : List String) (now a : Int) (d : String) : Prop :=
  d ∈ l ∧ ageDaysS now d < a ∧ ∀ e ∈ l, ageDaysS now e < a → toSecsS d ≤ toSecsS e

instance (s : String) : Decidable (Valid s) :=
  inferInstanceAs (Decidable ((parseIdChars s.data).isSome = true))

instance (l : List String) (now a : Int) (d : String) :
    Decidable (IsEarliestQual l now a d) :=
  inferInstanceAs (Decidable (d ∈ l ∧ ageDaysS now d < a ∧
    ∀ e ∈ l, ageDaysS now e < a → toSecsS d ≤ toSecsS e))

/-- The qualification test of bucket `a` on identifier `s`. -/
def qualB (now a : Int) (s : String) : Bool := decide (ageDaysS now s < a)

/-- Range constraints guaranteed for every successfully parsed timestamp. -/
def ValidDT (t : DT) : Prop :=
  1 ≤ t.year ∧ t.year ≤ 9999 ∧ 1 ≤ t.month ∧ t.month ≤ 12 ∧
  1 ≤ t.day ∧ t.day ≤ daysInMonthTbl (isLeap t.year) t.month ∧
  t.hour ≤ 23 ∧ t.minute ≤ 59 ∧ t.second ≤ 59

/-- The 14 digits of an identifier read as one number; string order on
well-formed identifiers is the order of this key. -/
def key (t : DT) : Nat :=
  ((((t.year * 100 + t.month) * 100 + t.day) * 100 + t.hour) * 100 + t.minute) * 100 + t.second

/-- Sortedness with respect to Python string order. -/
def SortedS (l : List String) : Prop := List.Pairwise (fun a b => strLe a b = true) l

/-! ## String order: basic facts -/

theorem char_toNat_inj {a b : Char} (h : a.toNat = b.toNat) : a = b := by
  have ha := Char.ofNat_toNat a
  rw [← ha, h, Char.ofNat_toNat]

theorem listLe_cons_iff {a b : Char} {as bs : List Char} :
    listLe (a :: as) (b :: bs) = true ↔
      a.toNat < b.toNat ∨ (a.toNat = b.toNat ∧ listLe as bs = true) := by
  simp only [listLe]
  split
  · exact iff_of_true rfl (Or.inl (by assumption))
  · split
    · refine iff_of_false (by simp) ?_
      rintro (h | ⟨h, _⟩) <;> omega
    · constructor
      · intro h
        exact Or.inr ⟨by omega, h⟩
      · rintro (h | ⟨_, h⟩)
        · omega
        · exact h

theorem listLe_refl : ∀ (l : List Char), listLe l l = true
  | [] => rfl
  | a :: as => by
    rw [listLe_cons_iff]
    exact Or.inr ⟨rfl, listLe_refl as⟩

theorem listLe_total : ∀ (x y : List Char), listLe x y = true ∨ listLe y x = true
  | [], _ => Or.inl rfl
  | _ :: _, [] => Or.inr rfl
  | a :: as, b :: bs => by
    rcases Nat.lt_trichotomy a.toNat b.toNat with h | h | h
    · exact Or.inl (listLe_cons_iff.2 (Or.inl h))
    · rcases listLe_total as bs with h2 | h2
      · exact Or.inl (listLe_cons_iff.2 (Or.inr ⟨h, h2⟩))
      · exact Or.inr (listLe_cons_iff.2 (Or.inr ⟨h.symm, h2⟩))
    · exact Or.inr (listLe_cons_iff.2 (Or.inl h))

theorem listLe_antisymm : ∀ {x y : List Char},
    listLe x y = true → listLe y x = true → x = y
  | [], [], _, _ => rfl
  | [], _ :: _, _, h => by simp [listLe] at h
  | _ :: _, [], h, _ => by simp [listLe] at h
  | a :: as, b :: bs, h1, h2 => by
    rw [listLe_cons_iff] at h1 h2
    rcases h1 with h1 | ⟨e1, t1⟩
    · rcases h2 with h2 | ⟨e2, _⟩ <;> omega
    · rcases h2 with h2 | ⟨_, t2⟩
      · omega
      · rw [char_toNat_inj e1, listLe_antisymm t1 t2]

theorem listLe_trans : ∀ {x y z : List Char},
    listLe x y = true → listLe y z = true → listLe x z = true
  | [], _, _, _, _ => rfl
  | _ :: _, [], _, h, _ => by simp [listLe] at h
  | _ :: _, _ :: _, [], _, h => by simp [listLe] at h
  | a :: as, b :: bs, c :: cs, h1, h2 => by
    rw [listLe_cons_iff] at h1 h2 ⊢
    rcases h1 with h1 | ⟨e1, t1⟩
    · rcases h2 with h2 | ⟨e2, _⟩
      · exact Or.inl (by omega)
      · exact Or.inl (by omega)
    · rcases h2 with h2 | ⟨e2, t2⟩
      · exact Or.inl (by omega)
      · exact Or.inr ⟨by omega, listLe_trans t1 t2⟩

theorem string_data_inj {s t : String} (h : s.data = t.data) : s = t := by
  cases s
  cases t
  exact congrArg String.mk h

theorem strLe_refl (s : String) : strLe s s = true := listLe_refl s.data

theorem strLe_total (a b : String) : strLe a b = true ∨ strLe b a = true :=
  listLe_total a.data b.data

theorem strLe_antisymm {a b : String} (h1 : strLe a b = true) (h2 : strLe b a = true) :
    a = b :=
  string_data_inj (listLe_antisymm h1 h2)

theorem strLe_trans {a b c : String} (h1 : strLe a b = true) (h2 : strLe b c = true) :
    strLe a c = true :=
  listLe_trans h1 h2

instance : IsAntisymm String (fun a b => strLe a b = true) := ⟨fun _ _ => strLe_antisymm⟩

/-! ## Sorting and dedup facts -/

theorem insertS_perm (x : String) : ∀ (l : List String), (insertS x l).Perm (x :: l)
  | [] => List.Perm.refl _
  | y :: ys => by
    by_cases hxy : strLe x y = true
    · rw [insertS, if_pos hxy]
    · rw [insertS, if_neg hxy]
      exact ((insertS_perm x ys).cons y).trans (List.Perm.swap x y ys)

theorem sortL_perm : ∀ (l : List String), (sortL l).Perm l
  | [] => List.Perm.refl _
  | x :: xs => by
    rw [sortL]
    exact (insertS_perm x (sortL xs)).trans ((sortL_perm xs).cons x)

theorem mem_sortL {x : String} {l : List String} : x ∈ sortL l ↔ x ∈ l :=
  (sortL_perm l).mem_iff

theorem insertS_sorted {x : String} : ∀ {l : List String}, SortedS l →
    SortedS (insertS x l)
  | [], _ => List.pairwise_cons.2 ⟨by simp, List.Pairwise.nil⟩
  | y :: ys, h => by
    obtain ⟨hy, hys⟩ := List.pairwise_cons.1 h
    by_cases hxy : strLe x y = true
    · rw [insertS, if_pos hxy]
      refine List.pairwise_cons.2 ⟨?_, h⟩
      intro e he
      rcases List.mem_cons.1 he with rfl | he'
      · exact hxy
      · exact strLe_trans hxy (hy e he')
    · rw [insertS, if_neg hxy]
      have hyx : strLe y x = true := (strLe_total x y).resolve_left hxy
      refine List.pairwise_cons.2 ⟨?_, insertS_sorted hys⟩
      intro e he
      rcases List.mem_cons.1 ((insertS_perm x ys).mem_iff.1 he) with rfl | he'
      · exact hyx
      · exact hy e he'

theorem sortL_sorted : ∀ (l : List String), SortedS (sortL l)
  | [] => List.Pairwise.nil
  | x :: xs => by
    rw [sortL]
    exact insertS_sorted (sortL_sorted xs)

theorem sortL_length (l : List String) : (sortL l).length = l.length :=
  (sortL_perm l).length_eq

theorem mem_dedupSort {x : String} {l : List String} : x ∈ dedupSort l ↔ x ∈ l := by
  unfold dedupSort
  rw [mem_sortL, List.mem_dedup]

theorem dedupSort_nodup (l : List String) : (dedupSort l).Nodup :=
  ((sortL_perm l.dedup).nodup_iff).2 (List.nodup_dedup l)

theorem dedupSort_sorted (l : List String) : SortedS (dedupSort l) :=
  sortL_sorted l.dedup

theorem dedupSort_length_le (l : List String) : (dedupSort l).length ≤ l.length := by
  unfold dedupSort
  rw [sortL_length]
  exact (List.dedup_sublist l).length_le

theorem dedupSort_ext {l₁ l₂ : List String} (h : ∀ x, x ∈ l₁ ↔ x ∈ l₂) :
    dedupSort l₁ = dedupSort l₂ := by
  refine List.eq_of_perm_of_sorted ?_ (dedupSort_sorted l₁) (dedupSort_sorted l₂)
  refine (List.perm_ext_iff_of_nodup (dedupSort_nodup l₁) (dedupSort_nodup l₂)).2 ?_
  intro a
  rw [mem_dedupSort, mem_dedupSort]
  exact h a

/-! ## The string order on well-formed identifiers is chronological order -/

theorem dchar_toNat_of_lt {k : Nat} (h : k < 10) : (dchar k).toNat = 48 + k := by
  interval_cases k <;> decide

theorem dchar_toNat10 (n : Nat) : (dchar (n % 10)).toNat = 48 + n % 10 :=
  dchar_toNat_of_lt (Nat.mod_lt n (by decide))

theorem digitVal_le {c : Char} (h : isDigit c = true) : digitVal c ≤ 9 := by
  simp only [isDigit, Bool.and_eq_true, decide_eq_true_eq] at h
  unfold digitVal
  omega

theorem dchar_digit {c : Char} (h : isDigit c = true) : dchar (digitVal c) = c := by
  simp only [isDigit, Bool.and_eq_true, decide_eq_true_eq] at h
  unfold dchar digitVal
  have e : 48 + (c.toNat - 48) = c.toNat := by omega
  rw [e, Char.ofNat_toNat]

theorem daysInMonthTbl_le (L : Bool) (m : Nat) : daysInMonthTbl L m ≤ 31 := by
  cases L <;>
    rcases m with _ | _ | _ | _ | _ | _ | _ | _ | _ | _ | _ | _ | _ | m <;>
    first
      | decide
      | exact Nat.zero_le 31

theorem parse_shape {xs : List Char} {t : DT} (h : parseIdChars xs = some t) :
    xs = formatDT t ∧ ValidDT t := by
  rcases xs with _ | ⟨y1, xs⟩; · exact Option.noConfusion h
  rcases xs with _ | ⟨y2, xs⟩; · exact Option.noConfusion h
  rcases xs with _ | ⟨y3, xs⟩; · exact Option.noConfusion h
  rcases xs with _ | ⟨y4, xs⟩; · exact Option.noConfusion h
  rcases xs with _ | ⟨m1, xs⟩; · exact Option.noConfusion h
  rcases xs with _ | ⟨m2, xs⟩; · exact Option.noConfusion h
  rcases xs with _ | ⟨d1, xs⟩; · exact Option.noConfusion h
  rcases xs with _ | ⟨d2, xs⟩; · exact Option.noConfusion h
  rcases xs with _ | ⟨u, xs⟩; · exact Option.noConfusion h
  rcases xs with _ | ⟨h1, xs⟩; · exact Option.noConfusion h
  rcases xs with _ | ⟨h2, xs⟩; · exact Option.noConfusion h
  rcases xs with _ | ⟨n1, xs⟩; · exact Option.noConfusion h
  rcases xs with _ | ⟨n2, xs⟩; · exact Option.noConfusion h
  rcases xs with _ | ⟨s1, xs⟩; · exact Option.noConfusion h
  rcases xs with _ | ⟨s2, xs⟩; · exact Option.noConfusion h
  rcases xs with _ | ⟨c16, xs⟩
  case cons.cons => exact Option.noConfusion h
  simp only [parseIdChars] at h
  split at h
  case isFalse => exact Option.noConfusion h
  case isTrue hc =>
    injection h with h
    subst h
    obtain ⟨hu, hall, hy1, hmo1, hmo2, hdy1, hdy2, hh, hmi, hse⟩ := hc
    simp only [List.all_cons, List.all_nil, Bool.and_eq_true, and_true] at hall
    obtain ⟨b1, b2, b3, b4, b5, b6, b7, b8, b9, b10, b11, b12, b13, b14⟩ := hall
    have g1 := digitVal_le b1
    have g2 := digitVal_le b2
    have g3 := digitVal_le b3
    have g4 := digitVal_le b4
    have g5 := digitVal_le b5
    have g6 := digitVal_le b6
    have g7 := digitVal_le b7
    have g8 := digitVal_le b8
    have g9 := digitVal_le b9
    have g10 := digitVal_le b10
    have g11 := digitVal_le b11
    have g12 := digitVal_le b12
    have g13 := digitVal_le b13
    have g14 := digitVal_le b14
    subst hu
    have e1 : (((digitVal y1 * 10 + digitVal y2) * 10 + digitVal y3) * 10 + digitVal y4)
        / 1000 % 10 = digitVal y1 := by omega
    have e2 : (((digitVal y1 * 10 + digitVal y2) * 10 + digitVal y3) * 10 + digitVal y4)
        / 100 % 10 = digitVal y2 := by omega
    have e3 : (((digitVal y1 * 10 + digitVal y2) * 10 + digitVal y3) * 10 + digitVal y4)
        / 10 % 10 = digitVal y3 := by omega
    have e4 : (((digitVal y1 * 10 + digitVal y2) * 10 + digitVal y3) * 10 + digitVal y4)
        % 10 = digitVal y4 := by omega
    have e5 : (digitVal m1 * 10 + digitVal m2) / 10 % 10 = digitVal m1 := by omega
    have e6 : (digitVal m1 * 10 + digitVal m2) % 10 = digitVal m2 := by omega
    have e7 : (digitVal d1 * 10 + digitVal d2) / 10 % 10 = digitVal d1 := by omega
    have e8 : (digitVal d1 * 10 + digitVal d2) % 10 = digitVal d2 := by omega
    have e9 : (digitVal h1 * 10 + digitVal h2) / 10 % 10 = digitVal h1 := by omega
    have e10 : (digitVal h1 * 10 + digitVal h2) % 10 = digitVal h2 := by omega
    have e11 : (digitVal n1 * 10 + digitVal n2) / 10 % 10 = digitVal n1 := by omega
    have e12 : (digitVal n1 * 10 + digitVal n2) % 10 = digitVal n2 := by omega
    have e13 : (digitVal s1 * 10 + digitVal s2) / 10 % 10 = digitVal s1 := by omega
    have e14 : (digitVal s1 * 10 + digitVal s2) % 10 = digitVal s2 := by omega
    constructor
    · simp only [formatDT, e1, dchar_digit b1, e2, dchar_digit b2, e3, dchar_digit b3,
        e4, dchar_digit b4, e5, dchar_digit b5, e6, dchar_digit b6, e7, dchar_digit b7,
        e8, dchar_digit b8, e9, dchar_digit b9, e10, dchar_digit b10, e11, dchar_digit b11,
        e12, dchar_digit b12, e13, dchar_digit b13, e14, dchar_digit b14]
    · exact ⟨hy1, by dsimp only; omega, hmo1, hmo2, hdy1, hdy2, hh, hmi, hse⟩

theorem underscore_toNat : ('_').toNat = 95 := rfl

theorem listLe_nil_left (l : List Char) : listLe [] l = true := rfl

theorem mul_add_lt_iff {d d' v v' M : Nat} (hv : v < M) (hv' : v' < M) :
    d * M + v < d' * M + v' ↔ (d < d' ∨ (d = d' ∧ v < v')) := by
  constructor
  · intro h
    rcases Nat.lt_trichotomy d d' with hd | hd | hd
    · exact Or.inl hd
    · subst hd
      exact Or.inr ⟨rfl, by omega⟩
    · exfalso
      have h1 : (d' + 1) * M ≤ d * M := Nat.mul_le_mul_right M (by omega)
      rw [Nat.succ_mul] at h1
      omega
  · rintro (hd | ⟨hd, hv2⟩)
    · have h1 : (d + 1) * M ≤ d' * M := Nat.mul_le_mul_right M (by omega)
      rw [Nat.succ_mul] at h1
      omega
    · subst hd
      omega

theorem mul_add_eq_iff {d d' v v' M : Nat} (hv : v < M) (hv' : v' < M) :
    d * M + v = d' * M + v' ↔ (d = d' ∧ v = v') := by
  constructor
  · intro h
    rcases Nat.lt_trichotomy d d' with hd | hd | hd
    · exfalso
      have h1 : (d + 1) * M ≤ d' * M := Nat.mul_le_mul_right M (by omega)
      rw [Nat.succ_mul] at h1
      omega
    · subst hd
      exact ⟨rfl, by omega⟩
    · exfalso
      have h1 : (d' + 1) * M ≤ d * M := Nat.mul_le_mul_right M (by omega)
      rw [Nat.succ_mul] at h1
      omega
  · rintro ⟨h1, h2⟩
    rw [h1, h2]

/-- Value of a list of decimal digits, most significant first. -/
def digitsVal : List Nat → Nat
  | [] => 0
  | d :: ds => d * 10 ^ ds.length + digitsVal ds

theorem digitsVal_lt : ∀ {ds : List Nat}, (∀ d ∈ ds, d ≤ 9) →
    digitsVal ds < 10 ^ ds.length
  | [], _ => by simp [digitsVal]
  | d :: ds, h => by
    have hd : d ≤ 9 := h d (by simp)
    have ih := digitsVal_lt (fun x hx => h x (List.mem_cons_of_mem _ hx))
    simp only [digitsVal, List.length_cons, pow_succ]
    have h1 : d * 10 ^ ds.length ≤ 9 * 10 ^ ds.length :=
      Nat.mul_le_mul_right _ hd
    omega

theorem listLe_digits : ∀ (xs ys : List Nat) (as bs : List Char),
    xs.length = ys.length → (∀ d ∈ xs, d ≤ 9) → (∀ d ∈ ys, d ≤ 9) →
    (listLe (xs.map dchar ++ as) (ys.map dchar ++ bs) = true ↔
      (digitsVal xs < digitsVal ys ∨
        (digitsVal xs = digitsVal ys ∧ listLe as bs = true)))
  | [], [], as, bs, _, _, _ => by simp [digitsVal]
  | [], y :: ys, as, bs, h, _, _ => by simp at h
  | x :: xs, [], as, bs, h, _, _ => by simp at h
  | x :: xs, y :: ys, as, bs, hlen, hx, hy => by
    have hx1 : x ≤ 9 := hx x (by simp)
    have hy1 : y ≤ 9 := hy y (by simp)
    have hlen' : xs.length = ys.length := by simpa using hlen
    have ih := listLe_digits xs ys as bs hlen'
      (fun d hd => hx d (List.mem_cons_of_mem _ hd))
      (fun d hd => hy d (List.mem_cons_of_mem _ hd))
    have hvx := digitsVal_lt (fun d hd => hx d (List.mem_cons_of_mem _ hd))
    have hvy := digitsVal_lt (fun d hd => hy d (List.mem_cons_of_mem _ hd))
    rw [hlen'] at hvx
    simp only [List.map_cons, List.cons_append, listLe_cons_iff, digitsVal,
      List.length_cons]
    rw [dchar_toNat_of_lt (by omega), dchar_toNat_of_lt (by omega), ih, hlen']
    constructor
    · rintro (h | ⟨he, hlt | ⟨heq, hP⟩⟩)
      · exact Or.inl ((mul_add_lt_iff hvx hvy).2 (Or.inl (by omega)))
      · exact Or.inl ((mul_add_lt_iff hvx hvy).2 (Or.inr ⟨by omega, hlt⟩))
      · refine Or.inr ⟨?_, hP⟩
        rw [show x = y from by omega, heq]
    · rintro (h | ⟨he, hP⟩)
      · rcases (mul_add_lt_iff hvx hvy).1 h with h1 | ⟨h1, h2⟩
        · exact Or.inl (by omega)
        · exact Or.inr ⟨by omega, Or.inl h2⟩
      · obtain ⟨h1, h2⟩ := (mul_add_eq_iff hvx hvy).1 he
        exact Or.inr ⟨by omega, Or.inr ⟨h2, hP⟩⟩

/-- The date digits of an identifier. -/
def ymdDigits (t : DT) : List Nat :=
  [t.year / 1000 % 10, t.year / 100 % 10, t.year / 10 % 10, t.year % 10,
   t.month / 10 % 10, t.month % 10, t.day / 10 % 10, t.day % 10]

/-- The time digits of an identifier. -/
def hmsDigits (t : DT) : List Nat :=
  [t.hour / 10 % 10, t.hour % 10, t.minute / 10 % 10, t.minute % 10,
   t.second / 10 % 10, t.second % 10]

theorem formatDT_decomp (t : DT) :
    formatDT t = (ymdDigits t).map dchar ++ '_' :: (hmsDigits t).map dchar := rfl

theorem ymdDigits_le (t : DT) : ∀ d ∈ ymdDigits t, d ≤ 9 := by
  intro d hd
  simp only [ymdDigits, List.mem_cons, List.not_mem_nil, or_false] at hd
  rcases hd with rfl | rfl | rfl | rfl | rfl | rfl | rfl | rfl <;> omega

theorem hmsDigits_le (t : DT) : ∀ d ∈ hmsDigits t, d ≤ 9 := by
  intro d hd
  simp only [hmsDigits, List.mem_cons, List.not_mem_nil, or_false] at hd
  rcases hd with rfl | rfl | rfl | rfl | rfl | rfl <;> omega

theorem digitsVal_ymd {t : DT} (h : ValidDT t) :
    digitsVal (ymdDigits t) = t.year * 10000 + t.month * 100 + t.day := by
  obtain ⟨a1, a2, a3, a4, a5, a6, _, _, _⟩ := h
  have da : t.day ≤ 31 := le_trans a6 (daysInMonthTbl_le _ _)
  have n1 : t.year / 10 / 10 = t.year / 100 := by
    rw [Nat.div_div_eq_div_mul]
  have n2 : t.year / 100 / 10 = t.year / 1000 := by
    rw [Nat.div_div_eq_div_mul]
  norm_num [digitsVal, ymdDigits]
  omega

theorem digitsVal_hms {t : DT} (h : ValidDT t) :
    digitsVal (hmsDigits t) = t.hour * 10000 + t.minute * 100 + t.second := by
  obtain ⟨_, _, _, _, _, _, a7, a8, a9⟩ := h
  norm_num [digitsVal, hmsDigits]
  omega

theorem listLe_format_iff {t t' : DT} (h : ValidDT t) (h' : ValidDT t') :
    (listLe (formatDT t) (formatDT t') = true) ↔ key t ≤ key t' := by
  have houter := listLe_digits (ymdDigits t) (ymdDigits t')
    ('_' :: (hmsDigits t).map dchar) ('_' :: (hmsDigits t').map dchar) rfl
    (ymdDigits_le t) (ymdDigits_le t')
  have hmid : listLe ('_' :: (hmsDigits t).map dchar) ('_' :: (hmsDigits t').map dchar)
      = listLe ((hmsDigits t).map dchar) ((hmsDigits t').map dchar) := rfl
  have hinner := listLe_digits (hmsDigits t) (hmsDigits t') [] [] rfl
    (hmsDigits_le t) (hmsDigits_le t')
  simp only [List.append_nil] at hinner
  rw [formatDT_decomp, formatDT_decomp, houter, hmid, hinner,
    digitsVal_ymd h, digitsVal_ymd h', digitsVal_hms h, digitsVal_hms h']
  have a7 : t.hour ≤ 23 := h.2.2.2.2.2.2.1
  have a8 : t.minute ≤ 59 := h.2.2.2.2.2.2.2.1
  have a9 : t.second ≤ 59 := h.2.2.2.2.2.2.2.2
  have c7 : t'.hour ≤ 23 := h'.2.2.2.2.2.2.1
  have c8 : t'.minute ≤ 59 := h'.2.2.2.2.2.2.2.1
  have c9 : t'.second ≤ 59 := h'.2.2.2.2.2.2.2.2
  simp only [key, listLe_nil_left, and_true]
  omega

theorem isLeap_iff {y : Nat} : isLeap y = true ↔ y % 4 = 0 ∧ (y % 100 ≠ 0 ∨ y % 400 = 0) := by
  simp [isLeap]

set_option maxHeartbeats 1000000 in
theorem daysBeforeYear_succ {y : Nat} (h : 1 ≤ y) :
    daysBeforeYear (y + 1) = daysBeforeYear y + (if isLeap y then 366 else 365) := by
  cases hb : isLeap y with
  | false =>
    have hp : ¬(y % 4 = 0 ∧ (y % 100 ≠ 0 ∨ y % 400 = 0)) := by
      intro hc
      rw [isLeap_iff.2 hc] at hb
      exact Bool.noConfusion hb
    show daysBeforeYear (y + 1) = daysBeforeYear y + 365
    simp only [daysBeforeYear]
    omega
  | true =>
    have hp := isLeap_iff.1 hb
    show daysBeforeYear (y + 1) = daysBeforeYear y + 366
    simp only [daysBeforeYear]
    omega

theorem daysBeforeYear_mono {y y' : Nat} (h : y ≤ y') :
    daysBeforeYear y ≤ daysBeforeYear y' := by
  have h4 : (y - 1) / 4 ≤ (y' - 1) / 4 := Nat.div_le_div_right (by omega)
  have h400 : (y - 1) / 400 ≤ (y' - 1) / 400 := Nat.div_le_div_right (by omega)
  have h100 : (y' - 1) / 100 ≤ (y - 1) / 100 + ((y' - 1) - (y - 1)) := by
    have h1 : (y' - 1) ≤ (y - 1) + ((y' - 1) - (y - 1)) * 100 := by omega
    have h2 : (y' - 1) / 100 ≤ ((y - 1) + ((y' - 1) - (y - 1)) * 100) / 100 :=
      Nat.div_le_div_right h1
    rwa [Nat.add_mul_div_right _ _ (by omega : 0 < 100)] at h2
  simp only [daysBeforeYear]
  omega

theorem daysBeforeMonth_succ (L : Bool) {m : Nat} (h : 1 ≤ m) :
    daysBeforeMonth L (m + 1) = daysBeforeMonth L m + daysInMonthTbl L m := by
  rcases m with _ | m
  · omega
  · rfl

theorem daysBeforeMonth_le_succ (L : Bool) (m : Nat) :
    daysBeforeMonth L m ≤ daysBeforeMonth L (m + 1) := by
  rcases m with _ | m
  · exact Nat.le_of_eq rfl
  · exact Nat.le_add_right _ _

theorem daysBeforeMonth_mono (L : Bool) {m m' : Nat} (h : m ≤ m') :
    daysBeforeMonth L m ≤ daysBeforeMonth L m' := by
  induction h with
  | refl => exact Nat.le_refl _
  | step _ ih => exact le_trans ih (daysBeforeMonth_le_succ L _)

theorem daysBeforeMonth_thirteen (L : Bool) :
    daysBeforeMonth L 13 = if L then 366 else 365 := by
  cases L <;> rfl

/-- Within a valid year, month 1–12 with a valid day stays below the year total. -/
theorem month_day_bound {L : Bool} {m d : Nat} (h1 : 1 ≤ m) (h2 : m ≤ 12)
    (_h3 : 1 ≤ d) (h4 : d ≤ daysInMonthTbl L m) :
    daysBeforeMonth L m + d ≤ daysBeforeMonth L 13 := by
  have hs := daysBeforeMonth_succ L h1
  have hm := daysBeforeMonth_mono L (show m + 1 ≤ 13 by omega)
  omega

theorem toordinal_lt {t t' : DT} (h : ValidDT t) (h' : ValidDT t')
    (hl : t.year < t'.year ∨ (t.year = t'.year ∧
      (t.month < t'.month ∨ (t.month = t'.month ∧ t.day < t'.day)))) :
    toordinal t < toordinal t' := by
  obtain ⟨a1, a2, a3, a4, a5, a6, a7, a8, a9⟩ := h
  obtain ⟨c1, c2, c3, c4, c5, c6, c7, c8, c9⟩ := h'
  rcases hl with hy | ⟨hy, hm | ⟨hm, hd⟩⟩
  · have hub := month_day_bound (L := isLeap t.year) a3 a4 a5 a6
    have h13 := daysBeforeMonth_thirteen (isLeap t.year)
    have hstep := daysBeforeYear_succ a1
    have hmono := daysBeforeYear_mono (show t.year + 1 ≤ t'.year by omega)
    simp only [toordinal]
    by_cases hL : isLeap t.year = true
    · rw [if_pos hL] at h13 hstep
      omega
    · rw [if_neg hL] at h13 hstep
      omega
  · have hs := daysBeforeMonth_succ (isLeap t.year) a3
    have hmono := daysBeforeMonth_mono (isLeap t.year)
      (show t.month + 1 ≤ t'.month by omega)
    simp only [toordinal]
    rw [hy] at a6 hs hmono ⊢
    omega
  · simp only [toordinal]
    rw [hy, hm]
    omega

theorem toSecs_lt_of_key_lt {t t' : DT} (h : ValidDT t) (h' : ValidDT t')
    (hk : key t < key t') : toSecs t < toSecs t' := by
  have hdl : t.day ≤ 31 := le_trans h.2.2.2.2.2.1 (daysInMonthTbl_le _ _)
  have hdl' : t'.day ≤ 31 := le_trans h'.2.2.2.2.2.1 (daysInMonthTbl_le _ _)
  have hlex : t.year < t'.year ∨ (t.year = t'.year ∧
      (t.month < t'.month ∨ (t.month = t'.month ∧
      (t.day < t'.day ∨ (t.day = t'.day ∧
      (t.hour < t'.hour ∨ (t.hour = t'.hour ∧
      (t.minute < t'.minute ∨ (t.minute = t'.minute ∧
      t.second < t'.second))))))))) := by
    obtain ⟨a1, a2, a3, a4, a5, a6, a7, a8, a9⟩ := h
    obtain ⟨c1, c2, c3, c4, c5, c6, c7, c8, c9⟩ := h'
    simp only [key] at hk
    omega
  have a7 : t.hour ≤ 23 := h.2.2.2.2.2.2.1
  have a8 : t.minute ≤ 59 := h.2.2.2.2.2.2.2.1
  have a9 : t.second ≤ 59 := h.2.2.2.2.2.2.2.2
  have c7 : t'.hour ≤ 23 := h'.2.2.2.2.2.2.1
  have c8 : t'.minute ≤ 59 := h'.2.2.2.2.2.2.2.1
  have c9 : t'.second ≤ 59 := h'.2.2.2.2.2.2.2.2
  rcases hlex with hy | ⟨hy, hm | ⟨hm, hd | ⟨hd, htime⟩⟩⟩
  · have := toordinal_lt h h' (Or.inl hy)
    simp only [toSecs]
    omega
  · have := toordinal_lt h h' (Or.inr ⟨hy, Or.inl hm⟩)
    simp only [toSecs]
    omega
  · have := toordinal_lt h h' (Or.inr ⟨hy, Or.inr ⟨hm, hd⟩⟩)
    simp only [toSecs]
    omega
  · have hord : toordinal t = toordinal t' := by
      simp only [toordinal]
      rw [hy, hm, hd]
    simp only [toSecs]
    rw [hord]
    rcases htime with hh | ⟨hh, hmi | ⟨hmi, hs⟩⟩ <;> omega

theorem key_inj {t t' : DT} (h : ValidDT t) (h' : ValidDT t') (hk : key t = key t') :
    t = t' := by
  obtain ⟨y, mo, dy, hh, mi, se⟩ := t
  obtain ⟨y', mo', dy', hh', mi', se'⟩ := t'
  obtain ⟨a1, a2, a3, a4, a5, a6, a7, a8, a9⟩ := h
  obtain ⟨c1, c2, c3, c4, c5, c6, c7, c8, c9⟩ := h'
  have da : dy ≤ 31 := le_trans a6 (daysInMonthTbl_le _ _)
  have dc : dy' ≤ 31 := le_trans c6 (daysInMonthTbl_le _ _)
  simp only [key] at hk
  simp only [DT.mk.injEq]
  dsimp only at *
  refine ⟨?_, ?_, ?_, ?_, ?_, ?_⟩ <;> omega

/-- On well-formed identifiers, Python string order coincides with the order
of the parsed timestamps. -/
theorem strLe_iff_toSecsS {s s' : String} (h : Valid s) (h' : Valid s') :
    (strLe s s' = true) ↔ toSecsS s ≤ toSecsS s' := by
  obtain ⟨t, ht⟩ := Option.isSome_iff_exists.1 h
  obtain ⟨t', ht'⟩ := Option.isSome_iff_exists.1 h'
  obtain ⟨hs, hv⟩ := parse_shape ht
  obtain ⟨hs', hv'⟩ := parse_shape ht'
  have e : toSecsS s = toSecs t := by
    simp only [toSecsS]
    rw [ht]
  have e' : toSecsS s' = toSecs t' := by
    simp only [toSecsS]
    rw [ht']
  rw [e, e']
  unfold strLe
  rw [hs, hs', listLe_format_iff hv hv']
  constructor
  · intro hk
    rcases Nat.lt_or_ge (key t) (key t') with hlt | hge
    · exact le_of_lt (toSecs_lt_of_key_lt hv hv' hlt)
    · rw [key_inj hv hv' (Nat.le_antisymm hk hge)]
  · intro hsec
    by_contra hk
    push_neg at hk
    have := toSecs_lt_of_key_lt hv' hv hk
    omega

theorem toSecsS_inj {s s' : String} (h : Valid s) (h' : Valid s')
    (he : toSecsS s = toSecsS s') : s = s' := by
  have h1 : strLe s s' = true := (strLe_iff_toSecsS h h').2 (le_of_eq he)
  have h2 : strLe s' s = true := (strLe_iff_toSecsS h' h).2 (le_of_eq he.symm)
  exact strLe_antisymm h1 h2

theorem toSecsS_lt_of_ne {s s' : String} (h : Valid s) (h' : Valid s')
    (hle : strLe s s' = true) (hne : s ≠ s') : toSecsS s < toSecsS s' := by
  rcases lt_or_eq_of_le ((strLe_iff_toSecsS h h').1 hle) with hlt | heq
  · exact hlt
  · exact absurd (toSecsS_inj h h' heq) hne

/-! ## Characterising what `clean_dates` returns -/

theorem ltMaxList_eq (now a : Int) : ∀ {l : List String}, (∀ d ∈ l, Valid d) →
    ltMaxList now a l = some (l.filter (qualB now a))
  | [], _ => rfl
  | s :: rest, h => by
    have hs : Valid s := h s (by simp)
    obtain ⟨t, ht⟩ := Option.isSome_iff_exists.1 hs
    have ih := ltMaxList_eq now a (fun d hd => h d (List.mem_cons_of_mem _ hd))
    have he : ageDaysS now s = ageDays now t := by
      simp only [ageDaysS, toSecsS, ht, ageDays]
    simp only [ltMaxList, ht, ih, List.filter_cons, qualB, he, decide_eq_true_eq]

theorem buckets_eq (now : Int) : ∀ (mas : List Int) {l : List String},
    (∀ d ∈ l, Valid d) →
    buckets l now mas =
      some (mas.filterMap (fun a => (l.filter (qualB now a)).head?))
  | [], _, _ => rfl
  | a :: mas, l, h => by
    have ih := buckets_eq now mas h
    simp only [buckets, ltMaxList_eq now a h, ih, List.filterMap_cons]
    cases hh : (l.filter (qualB now a)).head? with
    | none => simp [hh]
    | some d => simp [hh]

/-- For well-formed input `clean_dates` raises nothing and returns the
deduplicated sorted union of the bucket representatives (head of each
filtered sorted list) and the last five of the sorted list; the mutable
argument is left sorted. -/
theorem clean_dates_eq {dates : List String} {now : Int} {maxAges : List Int}
    (hv : ∀ d ∈ dates, Valid d) :
    clean_dates dates now maxAges =
      some (dedupSort ((maxAges.filterMap
          (fun a => ((sortL dates).filter (qualB now a)).head?)) ++
          lastN 5 (sortL dates)),
        sortL dates) := by
  have hv' : ∀ d ∈ sortL dates, Valid d := fun d hd => hv d (mem_sortL.1 hd)
  simp only [clean_dates, clean_dates_impl, Option.getD, buckets_eq now maxAges hv']

theorem head_filter_min {p : String → Bool} : ∀ {l : List String}, SortedS l →
    ∀ {d}, (l.filter p).head? = some d →
      d ∈ l ∧ p d = true ∧ ∀ e ∈ l, p e = true → strLe d e = true := by
  intro l hs
  induction l with
  | nil => intro d hd; simp [List.filter_nil] at hd
  | cons x xs ih =>
    obtain ⟨hx, hs'⟩ := List.pairwise_cons.1 hs
    intro d hd
    rw [List.filter_cons] at hd
    by_cases hpx : p x = true
    · rw [if_pos hpx] at hd
      simp only [List.head?_cons] at hd
      injection hd with hd
      subst hd
      refine ⟨by simp, hpx, ?_⟩
      intro e he _
      rcases List.mem_cons.1 he with rfl | he'
      · exact strLe_refl _
      · exact hx e he'
    · rw [if_neg hpx] at hd
      obtain ⟨hmem, hpd, hmin⟩ := ih hs' hd
      refine ⟨List.mem_cons_of_mem _ hmem, hpd, ?_⟩
      intro e he hpe
      rcases List.mem_cons.1 he with rfl | he'
      · exact absurd hpe hpx
      · exact hmin e he' hpe

/-! ## The last-five tail -/

theorem lastN_subset {n : Nat} {l : List String} : lastN n l ⊆ l :=
  List.drop_subset _ l

theorem lastN_sublist (n : Nat) (l : List String) : (lastN n l).Sublist l :=
  List.drop_sublist _ l

theorem lastN_length (n : Nat) (l : List String) :
    (lastN n l).length = min n l.length := by
  simp only [lastN, List.length_drop]
  omega

theorem lastN_all (n : Nat) {l : List String} (h : l.length ≤ n) : lastN n l = l := by
  simp only [lastN, show l.length - n = 0 from by omega, List.drop_zero]

theorem lastN_cons (n : Nat) (x : String) (xs : List String) :
    lastN n (x :: xs) = if xs.length < n then x :: xs else lastN n xs := by
  by_cases h : xs.length < n
  · rw [if_pos h]
    exact lastN_all n (by simp; omega)
  · rw [if_neg h]
    simp only [lastN, List.length_cons,
      show xs.length + 1 - n = (xs.length - n) + 1 from by omega, List.drop_succ_cons]

theorem countP_lt_length {p : String → Bool} : ∀ {l : List String} {d : String},
    d ∈ l → p d = false → l.countP p < l.length := by
  intro l
  induction l with
  | nil => intro d hd; simp at hd
  | cons x xs ih =>
    intro d hd hpd
    rw [List.countP_cons]
    rcases List.mem_cons.1 hd with rfl | hd'
    · have h4 : (if p d then (1:Nat) else 0) = 0 := by
        rw [hpd]
        rfl
      have h2 : xs.countP p ≤ xs.length := List.countP_le_length p
      simp only [List.length_cons]
      omega
    · have h1 := ih hd' hpd
      have h3 : (if p x then 1 else 0) ≤ 1 := by
        split <;> omega
      simp only [List.length_cons]
      omega

theorem countLater_lt_of_mem_lastN : ∀ {l : List String}, SortedS l →
    (∀ d ∈ l, Valid d) → ∀ {d : String}, d ∈ lastN 5 l → countLater l d < 5 := by
  intro l
  induction l with
  | nil => intro _ _ d hd; simp [lastN] at hd
  | cons x xs ih =>
    intro hs hv d hd
    obtain ⟨hx, hs'⟩ := List.pairwise_cons.1 hs
    rw [lastN_cons] at hd
    by_cases hlen : xs.length < 5
    · rw [if_pos hlen] at hd
      have h1 := @countP_lt_length (fun e => decide (toSecsS d < toSecsS e))
        (x :: xs) d hd (by simp)
      simp only [List.length_cons] at h1
      unfold countLater
      omega
    · rw [if_neg hlen] at hd
      have hd' : d ∈ xs := lastN_subset hd
      have ihd := ih hs' (fun e he => hv e (List.mem_cons_of_mem _ he)) hd
      have hxd : strLe x d = true := hx d hd'
      have hnotlt : ¬ (toSecsS d < toSecsS x) := by
        have := (strLe_iff_toSecsS (hv x (by simp))
          (hv d (List.mem_cons_of_mem _ hd'))).1 hxd
        omega
      unfold countLater at ihd ⊢
      rw [List.countP_cons]
      simp only [decide_eq_true_eq, if_neg hnotlt]
      omega

theorem mem_lastN_of_countLater_lt : ∀ {l : List String}, SortedS l → l.Nodup →
    (∀ d ∈ l, Valid d) → ∀ {d : String}, d ∈ l → countLater l d < 5 →
    d ∈ lastN 5 l := by
  intro l
  induction l with
  | nil => intro _ _ _ d hd; simp at hd
  | cons x xs ih =>
    intro hs hnd hv d hd hc
    obtain ⟨hx, hs'⟩ := List.pairwise_cons.1 hs
    obtain ⟨hndx, hnd'⟩ := List.nodup_cons.1 hnd
    rw [lastN_cons]
    by_cases hlen : xs.length < 5
    · rw [if_pos hlen]
      exact hd
    · rw [if_neg hlen]
      rcases List.mem_cons.1 hd with rfl | hd'
      · exfalso
        have hall : ∀ e ∈ xs, toSecsS d < toSecsS e := by
          intro e he
          exact toSecsS_lt_of_ne (hv d (by simp))
            (hv e (List.mem_cons_of_mem _ he)) (hx e he)
            (fun hde => hndx (hde ▸ he))
        have : xs.countP (fun e => decide (toSecsS d < toSecsS e)) = xs.length := by
          rw [List.countP_eq_length]
          intro e he
          simp only [decide_eq_true_eq]
          exact hall e he
        unfold countLater at hc
        rw [List.countP_cons] at hc
        omega
      · refine ih hs' hnd' (fun e he => hv e (List.mem_cons_of_mem _ he)) hd' ?_
        unfold countLater at hc ⊢
        rw [List.countP_cons] at hc
        have h3 : (0:Nat) ≤ if decide (toSecsS d < toSecsS x) = true then 1 else 0 := by
          split <;> omega
        omega

theorem countLater_sortL (dates : List String) (d : String) :
    countLater (sortL dates) d = countLater dates d :=
  (sortL_perm dates).countP_eq _

/-- Splitting membership in a `clean_dates` result into a bucket
representative and a recent-tail component. -/
theorem mem_clean_core {dates : List String} {now : Int} {maxAges : List Int}
    {d : String} :
    d ∈ dedupSort ((maxAges.filterMap
        (fun a => ((sortL dates).filter (qualB now a)).head?)) ++
        lastN 5 (sortL dates)) ↔
      (∃ b ∈ maxAges, ((sortL dates).filter (qualB now b)).head? = some d) ∨
        d ∈ lastN 5 (sortL dates) := by
  rw [mem_dedupSort, List.mem_append, List.mem_filterMap]

/-- Subset, dedup, and cardinality facts about a `clean_dates` result. -/
theorem cd_inv {dates : List String} {now : Int} {maxAges : List Int}
    (hnd : dates.Nodup) (hv : ∀ d ∈ dates, Valid d) :
    ∃ res post, clean_dates dates now maxAges = some (res, post) ∧
      res ⊆ dates ∧ res.Nodup ∧ res.length ≤ maxAges.length + 5 ∧
      min 5 dates.length ≤ res.length := by
  have hv' : ∀ d ∈ sortL dates, Valid d := fun d hd => hv d (mem_sortL.1 hd)
  have hnd' : (sortL dates).Nodup := ((sortL_perm dates).nodup_iff).2 hnd
  refine ⟨_, _, clean_dates_eq hv, ?_, dedupSort_nodup _, ?_, ?_⟩
  · intro d hd
    rw [mem_clean_core] at hd
    rcases hd with ⟨b, _, hh⟩ | hlast
    · exact mem_sortL.1 (head_filter_min (sortL_sorted dates) hh).1
    · exact mem_sortL.1 (lastN_subset hlast)
  · have h0 := dedupSort_length_le ((maxAges.filterMap
      (fun a => ((sortL dates).filter (qualB now a)).head?)) ++ lastN 5 (sortL dates))
    rw [List.length_append] at h0
    have h1 : (maxAges.filterMap
        (fun a => ((sortL dates).filter (qualB now a)).head?)).length ≤ maxAges.length :=
      List.length_filterMap_le _ _
    have h2 := lastN_length 5 (sortL dates)
    omega
  · have hsubL : lastN 5 (sortL dates) ⊆ dedupSort ((maxAges.filterMap
        (fun a => ((sortL dates).filter (qualB now a)).head?)) ++ lastN 5 (sortL dates)) := by
      intro x hx
      rw [mem_clean_core]
      exact Or.inr hx
    have hnodupL : (lastN 5 (sortL dates)).Nodup :=
      (lastN_sublist 5 (sortL dates)).nodup hnd'
    have hsp := (hnodupL.subperm hsubL).length_le
    rw [lastN_length, sortL_length] at hsp
    omega

/-! ## Concrete scenario data -/

/-- The eight identifiers of the spec's concrete scenario. -/
def idsC : List String :=
  [ "20240916_130322", "20241101_140322", "20241113_140322", "20241115_080322",
    "20241115_090322", "20241115_100322", "20241115_110322", "20241115_130322" ]

/-- 2024-11-15 14:03:22 in epoch seconds. -/
def nowC : Int := toSecs ⟨2024, 11, 15, 14, 3, 22⟩

/-- The keep-set `clean_dates` returns on the concrete scenario. -/
def resC : List String :=
  [ "20241101_140322", "20241113_140322", "20241115_080322", "20241115_090322",
    "20241115_100322", "20241115_110322", "20241115_130322" ]

/-- Seven snapshot directories used in the `run_backup` examples. -/
def dirsD : List String :=
  [ "20240101_000000", "20240102_000000", "20240103_000000", "20240104_000000",
    "20240105_000000", "20240106_000000", "20240107_000000" ]

/-- A deletion oracle that fails exactly on the oldest directory. -/
def rmFailsD : String → Bool := fun s => s == "20240101_000000"

/-! ## The claims -/

/-- C1: on the spec's concrete scenario (`idsC`, `now` = 2024-11-15 14:03:22,
`max_ages = (2,14,60)`, `keep_recent = 5`) the keep-set is exactly the union
of the five chronologically latest identifiers, the chronologically earliest
identifier of truncated age < 60 (`"20241101_140322"`, age 60 disqualifies
`"20240916_130322"`), and the chronologically earliest identifier of
truncated age < 14 (`"20241113_140322"`); every identifier of age < 2 days
is already among the latest five, so the 2-day bucket adds nothing. -/
theorem clean_dates_concrete_scenario :
    clean_dates idsC nowC [2, 14, 60] = some (resC, sortL idsC) ∧
    IsEarliestQual idsC nowC 60 "20241101_140322" ∧
    IsEarliestQual idsC nowC 14 "20241113_140322" ∧
    (∀ d ∈ resC, (d ∈ idsC ∧ countLater idsC d < 5) ∨
      d = "20241101_140322" ∨ d = "20241113_140322") ∧
    (∀ d ∈ idsC, countLater idsC d < 5 → d ∈ resC) ∧
    (∀ d ∈ idsC, ageDaysS nowC d < 2 → countLater idsC d < 5) := by
  decide

/-- C2: for well-formed identifiers, any `now` and any threshold `a` of
`max_ages`: `clean_dates` raises nothing, its keep-set contains the
chronologically earliest identifier of truncated age < `a` whenever one
exists, and every member of the keep-set is the chronologically earliest
qualifier of some threshold or one of the five chronologically latest
entries — so an empty bucket contributes nothing and is not an error. -/
theorem clean_dates_bucket_earliest {dates : List String} {now a : Int}
    {maxAges : List Int} (hv : ∀ d ∈ dates, Valid d) (ha : a ∈ maxAges) :
    ∃ res post, clean_dates dates now maxAges = some (res, post) ∧
      (∀ d, IsEarliestQual dates now a d → d ∈ res) ∧
      (∀ d ∈ res, (∃ b ∈ maxAges, IsEarliestQual dates now b d) ∨
        countLater dates d < 5) := by
  have hv' : ∀ d ∈ sortL dates, Valid d := fun d hd => hv d (mem_sortL.1 hd)
  refine ⟨_, _, clean_dates_eq hv, ?_, ?_⟩
  · rintro d ⟨hd, hage, hmin⟩
    rw [mem_clean_core]
    left
    cases hh : ((sortL dates).filter (qualB now a)).head? with
    | none =>
      exfalso
      have hmem : d ∈ (sortL dates).filter (qualB now a) := by
        rw [List.mem_filter]
        exact ⟨mem_sortL.2 hd, by simp [qualB, hage]⟩
      rw [List.head?_eq_none_iff] at hh
      rw [hh] at hmem
      exact absurd hmem (List.not_mem_nil d)
    | some h =>
      obtain ⟨hmem, hq, hmin2⟩ := head_filter_min (sortL_sorted dates) hh
      have hhd : toSecsS h ≤ toSecsS d := by
        have hle := hmin2 d (mem_sortL.2 hd) (by simp [qualB, hage])
        exact (strLe_iff_toSecsS (hv' h hmem) (hv d hd)).1 hle
      have hdh : toSecsS d ≤ toSecsS h := by
        apply hmin h (mem_sortL.1 hmem)
        simpa [qualB] using hq
      have heq : h = d := toSecsS_inj (hv' h hmem) (hv d hd) (le_antisymm hhd hdh)
      exact ⟨a, ha, heq ▸ hh⟩
  · intro d hd
    rw [mem_clean_core] at hd
    rcases hd with ⟨b, hb, hh⟩ | hlast
    · left
      obtain ⟨hmem, hq, hmin2⟩ := head_filter_min (sortL_sorted dates) hh
      refine ⟨b, hb, mem_sortL.1 hmem, by simpa [qualB] using hq, ?_⟩
      intro e he hqe
      have hle := hmin2 e (mem_sortL.2 he) (by simp [qualB, hqe])
      exact (strLe_iff_toSecsS (hv' _ hmem) (hv e he)).1 hle
    · right
      rw [← countLater_sortL]
      exact countLater_lt_of_mem_lastN (sortL_sorted dates) hv' hlast

theorem clean_dates_bucket_earliest_witness :
    (∀ d ∈ idsC, Valid d) ∧ (60 : Int) ∈ [(2 : Int), 14, 60] ∧
    (∃ res post, clean_dates idsC nowC [2, 14, 60] = some (res, post) ∧
      (∀ d, IsEarliestQual idsC nowC 60 d → d ∈ res) ∧
      (∀ d ∈ res, (∃ b ∈ [(2 : Int), 14, 60], IsEarliestQual idsC nowC b d) ∨
        countLater idsC d < 5)) :=
  ⟨by decide, by decide, clean_dates_bucket_earliest (by decide) (by decide)⟩

/-- C3: for a non-empty set of well-formed identifiers, the five
chronologically latest (`keep_recent` is hard-coded to 5 via `dates[-5:]`)
are always in the keep-set, and with fewer than five identifiers the whole
input is kept. -/
theorem clean_dates_keeps_recent {dates : List String} {now : Int}
    {maxAges : List Int} (_hne : dates ≠ []) (hnd : dates.Nodup)
    (hv : ∀ d ∈ dates, Valid d) :
    ∃ res post, clean_dates dates now maxAges = some (res, post) ∧
      (∀ d ∈ dates, countLater dates d < 5 → d ∈ res) ∧
      (dates.length < 5 → ∀ d ∈ dates, d ∈ res) := by
  have hv' : ∀ d ∈ sortL dates, Valid d := fun d hd => hv d (mem_sortL.1 hd)
  have hnd' : (sortL dates).Nodup := ((sortL_perm dates).nodup_iff).2 hnd
  have hmain : ∀ d ∈ dates, countLater dates d < 5 → d ∈ lastN 5 (sortL dates) := by
    intro d hd hc
    refine mem_lastN_of_countLater_lt (sortL_sorted dates) hnd' hv' (mem_sortL.2 hd) ?_
    rw [countLater_sortL]
    exact hc
  refine ⟨_, _, clean_dates_eq hv, ?_, ?_⟩
  · intro d hd hc
    rw [mem_clean_core]
    exact Or.inr (hmain d hd hc)
  · intro hlen d hd
    rw [mem_clean_core]
    refine Or.inr (hmain d hd ?_)
    have hcl : countLater dates d ≤ dates.length := List.countP_le_length _
    omega

theorem clean_dates_keeps_recent_witness :
    idsC ≠ [] ∧ idsC.Nodup ∧ (∀ d ∈ idsC, Valid d) ∧
    (∃ res post, clean_dates idsC nowC [2, 14, 60] = some (res, post) ∧
      (∀ d ∈ idsC, countLater idsC d < 5 → d ∈ res) ∧
      (idsC.length < 5 → ∀ d ∈ idsC, d ∈ res)) :=
  ⟨by decide, by decide, by decide,
    clean_dates_keeps_recent (by decide) (by decide) (by decide)⟩

/-- C4: permuting `max_ages` (duplicates and nested thresholds included)
never changes the keep-set: each threshold is evaluated independently
against the full sorted list and the union is deduplicated. -/
theorem clean_dates_max_ages_order_independent {dates : List String} {now : Int}
    {mas1 mas2 : List Int} (hv : ∀ d ∈ dates, Valid d) (hp : mas1.Perm mas2) :
    clean_dates dates now mas1 = clean_dates dates now mas2 := by
  rw [clean_dates_eq hv, clean_dates_eq hv]
  have hfm := hp.filterMap (fun a => ((sortL dates).filter (qualB now a)).head?)
  have hdd : dedupSort ((mas1.filterMap
        (fun a => ((sortL dates).filter (qualB now a)).head?)) ++ lastN 5 (sortL dates)) =
      dedupSort ((mas2.filterMap
        (fun a => ((sortL dates).filter (qualB now a)).head?)) ++ lastN 5 (sortL dates)) := by
    apply dedupSort_ext
    intro x
    simp only [List.mem_append, hfm.mem_iff]
  rw [hdd]

theorem clean_dates_max_ages_order_independent_witness :
    (∀ d ∈ idsC, Valid d) ∧ List.Perm [(2 : Int), 14, 60] [(14 : Int), 2, 60] ∧
    clean_dates idsC nowC [2, 14, 60] = clean_dates idsC nowC [14, 2, 60] :=
  ⟨by decide, by decide,
    clean_dates_max_ages_order_independent (by decide) (by decide)⟩

/-- C5 counterexample: `clean_dates` does read the wall clock when `now` is
left at its `None` default (`now = now or datetime.now()`), and `run_backup`
calls it exactly that way, so the keep-set is not a function of
(identifiers, now, max_ages) alone: the same call observed under two wall
clocks returns two different keep-sets. -/
theorem clean_dates_reads_wall_clock_cex :
    clean_dates_impl nowC idsC none [60] ≠
      clean_dates_impl (nowC + 1000000000) idsC none [60] := by
  decide

/-- C5 amended: when the caller does pass `now` (any non-`None` value), the
wall clock is ignored and the result is a function of the identifiers, `now`
and `max_ages` alone; only the `now=None` default (used by `run_backup`)
falls back to `datetime.now()`. -/
theorem clean_dates_deterministic_with_explicit_now (wc1 wc2 : Int)
    (dates : List String) (now : Int) (maxAges : List Int) :
    clean_dates_impl wc1 dates (some now) maxAges =
      clean_dates_impl wc2 dates (some now) maxAges := rfl

/-- C6 counterexample: `clean_dates` sorts its `dates` argument in place
(`dates.sort()`), so the caller's list is reordered: after the call on
`["20241115_090322", "20241115_080322"]` the argument holds the two
elements in the opposite (sorted) order. -/
theorem clean_dates_mutates_argument_cex :
    (clean_dates [ "20241115_090322", "20241115_080322" ] 0 []).map Prod.snd =
      some [ "20241115_080322", "20241115_090322" ] ∧
    ([ "20241115_080322", "20241115_090322" ] : List String) ≠
      [ "20241115_090322", "20241115_080322" ] := by
  decide

/-- C6 amended: `clean_dates` performs no external mutation or deletion,
but it does sort its `dates` list argument in place: after a successful
call the argument holds exactly the same elements (a permutation),
rearranged into ascending order. -/
theorem clean_dates_sorts_argument_in_place {dates : List String} {now : Int}
    {maxAges : List Int} {res post : List String}
    (h : clean_dates dates now maxAges = some (res, post)) :
    post = sortL dates ∧ post.Perm dates := by
  simp only [clean_dates, clean_dates_impl, Option.getD] at h
  cases hb : buckets (sortL dates) now maxAges with
  | none =>
    rw [hb] at h
    exact Option.noConfusion h
  | some reps =>
    rw [hb] at h
    injection h with h
    injection h with h1 h2
    exact ⟨h2.symm, h2 ▸ sortL_perm dates⟩

theorem clean_dates_sorts_argument_in_place_witness :
    clean_dates [ "20241115_090322", "20241115_080322" ] 0 [] =
      some ([ "20241115_080322", "20241115_090322" ],
        [ "20241115_080322", "20241115_090322" ]) ∧
    ([ "20241115_080322", "20241115_090322" ] : List String) =
        sortL [ "20241115_090322", "20241115_080322" ] ∧
      List.Perm [ "20241115_080322", "20241115_090322" ]
        [ "20241115_090322", "20241115_080322" ] :=
  ⟨by decide,
    @clean_dates_sorts_argument_in_place
      [ "20241115_090322", "20241115_080322" ] 0 []
      [ "20241115_080322", "20241115_090322" ]
      [ "20241115_080322", "20241115_090322" ] (by decide)⟩

/-- C7: for a duplicate-free list of well-formed identifiers the keep-set is
a subset of the input without duplicates, of size at most
`len(max_ages) + 5` and at least `min 5 (number of identifiers)`; re-running
on the previous keep-set plus one fresh identifier preserves both bounds,
so under repeated steps the retained size stays bounded and never drops
below `min 5 (total created)`. -/
theorem clean_dates_result_invariants {dates : List String} {now : Int}
    {maxAges : List Int} (hnd : dates.Nodup) (hv : ∀ d ∈ dates, Valid d) :
    ∃ res post, clean_dates dates now maxAges = some (res, post) ∧
      res ⊆ dates ∧ res.Nodup ∧ res.length ≤ maxAges.length + 5 ∧
      min 5 dates.length ≤ res.length ∧
      (∀ (newId : String) (now2 : Int) (maxAges2 : List Int),
        Valid newId → newId ∉ res →
        ∃ res2 post2, clean_dates (res ++ [newId]) now2 maxAges2 = some (res2, post2) ∧
          res2.length ≤ maxAges2.length + 5 ∧ min 5 (res.length + 1) ≤ res2.length) := by
  obtain ⟨res, post, he, hsub, hnodup, hub, hlb⟩ := cd_inv hnd hv
  refine ⟨res, post, he, hsub, hnodup, hub, hlb, ?_⟩
  intro newId now2 mas2 hvn hnotmem
  have hnd2 : (res ++ [newId]).Nodup := by
    rw [List.nodup_append]
    refine ⟨hnodup, List.nodup_singleton _, ?_⟩
    intro x hx hx2
    rw [List.mem_singleton] at hx2
    subst hx2
    exact hnotmem hx
  have hv2 : ∀ d ∈ res ++ [newId], Valid d := by
    intro d hd
    rcases List.mem_append.1 hd with h1 | h1
    · exact hv d (hsub h1)
    · rw [List.mem_singleton] at h1
      subst h1
      exact hvn
  obtain ⟨res2, post2, he2, _, _, hub2, hlb2⟩ := cd_inv hnd2 hv2
  refine ⟨res2, post2, he2, hub2, ?_⟩
  rw [List.length_append, List.length_singleton] at hlb2
  omega

theorem clean_dates_result_invariants_witness :
    idsC.Nodup ∧ (∀ d ∈ idsC, Valid d) ∧
    (∃ res post, clean_dates idsC nowC [2, 14, 60] = some (res, post) ∧
      res ⊆ idsC ∧ res.Nodup ∧ res.length ≤ ([(2 : Int), 14, 60]).length + 5 ∧
      min 5 idsC.length ≤ res.length ∧
      (∀ (newId : String) (now2 : Int) (maxAges2 : List Int),
        Valid newId → newId ∉ res →
        ∃ res2 post2, clean_dates (res ++ [newId]) now2 maxAges2 = some (res2, post2) ∧
          res2.length ≤ maxAges2.length + 5 ∧ min 5 (res.length + 1) ≤ res2.length)) :=
  ⟨by decide, by decide, clean_dates_result_invariants (by decide) (by decide)⟩

/-- C8: when `create_backup` raises, the exception skips straight to the
top-level handler: no deletion logic runs and the destination directories
are exactly as before. -/
theorem run_backup_create_failure_no_deletion (newId : String)
    (dirs : List String) (now : Int) (maxAges : List Int)
    (rmFails : String → Bool) :
    run_backup true newId dirs now maxAges rmFails = dirs := rfl

/-- C9 counterexample: one failing `shutil.rmtree` aborts the whole pruning
loop.  Here the keep-set is the five latest of eight directories, removal of
the oldest (`"20240101_000000"`) fails, and although
`"20240102_000000"` is non-retained and its own removal would succeed, the
run ends with every directory still present. -/
theorem run_backup_deletion_error_aborts_cex :
    (clean_dates_impl 10000000000 (dirsD ++ [ "20240108_000000" ]) none [2]).map Prod.fst =
      some [ "20240104_000000", "20240105_000000", "20240106_000000",
        "20240107_000000", "20240108_000000" ] ∧
    rmFailsD "20240102_000000" = false ∧
    run_backup false "20240108_000000" dirsD 10000000000 [2] rmFailsD =
      dirsD ++ [ "20240108_000000" ] := by
  decide

/-- C9 amended: an error while deleting one non-retained directory is caught
only by `run_backup`'s top-level handler (the run itself survives and logs),
and it ends the pruning pass: entries after the failing one in the iteration
order are never deleted in that run — the loop's outcome is the same as if
the listing had stopped at the failing entry. -/
theorem run_backup_deletion_error_skips_rest (keep : List String)
    (rm : String → Bool) :
    ∀ (pre dirs : List String) (b : String) (post : List String),
      (∀ c ∈ pre, c ∈ keep ∨ rm c = false) → b ∉ keep → rm b = true →
      deleteLoop keep rm dirs (pre ++ b :: post) =
        deleteLoop keep rm dirs (pre ++ [b])
  | [], dirs, b, post, _, hb, hrm => by
    simp only [List.nil_append, deleteLoop]
    rw [if_neg hb, if_neg hb, if_pos hrm, if_pos hrm]
  | c :: pre, dirs, b, post, hpre, hb, hrm => by
    have hc := hpre c (by simp)
    by_cases hck : c ∈ keep
    · simp only [List.cons_append, deleteLoop]
      rw [if_pos hck, if_pos hck]
      exact run_backup_deletion_error_skips_rest keep rm pre dirs b post
        (fun e he => hpre e (List.mem_cons_of_mem _ he)) hb hrm
    · have hcf : rm c = false := hc.resolve_left hck
      have hcn : ¬ (rm c = true) := by
        rw [hcf]
        exact Bool.false_ne_true
      simp only [List.cons_append, deleteLoop]
      rw [if_neg hck, if_neg hck, if_neg hcn, if_neg hcn]
      exact run_backup_deletion_error_skips_rest keep rm pre (dirs.erase c) b post
        (fun e he => hpre e (List.mem_cons_of_mem _ he)) hb hrm

theorem run_backup_deletion_error_skips_rest_witness :
    (∀ c ∈ [ "20240104_000000" ], c ∈ [ "20240104_000000" ] ∨ rmFailsD c = false) ∧
    "20240101_000000" ∉ [ "20240104_000000" ] ∧
    rmFailsD "20240101_000000" = true ∧
    deleteLoop [ "20240104_000000" ] rmFailsD dirsD
        ([ "20240104_000000" ] ++ "20240101_000000" :: [ "20240102_000000" ]) =
      deleteLoop [ "20240104_000000" ] rmFailsD dirsD
        ([ "20240104_000000" ] ++ [ "20240101_000000" ]) :=
  ⟨by decide, by decide, by decide,
    run_backup_deletion_error_skips_rest [ "20240104_000000" ] rmFailsD
      [ "20240104_000000" ] dirsD "20240101_000000" [ "20240102_000000" ]
      (by decide) (by decide) (by decide)⟩

/-- C10: the empty identifier list yields the empty keep-set, without any
error, for every reference time and every thresholds list. -/
theorem clean_dates_empty_input (now : Int) (maxAges : List Int) :
    clean_dates [] now maxAges = some ([], []) := by
  have hb : ∀ mas : List Int, buckets [] now mas = some [] := by
    intro mas
    induction mas with
    | nil => rfl
    | cons a mas ih => simp [buckets, ltMaxList, ih]
  simp [clean_dates, clean_dates_impl, hb, sortL, dedupSort, lastN]

end Autobackup
